import Mathlib

/-!
Verification development for the instrumental-variable estimators of
`linearmodels/iv/model.py` (classes `_IVModelBase`, `_IVLSModelBase`, `IV2SLS`,
`IVLIML`, `_IVGMMBase`, `IVGMM`, `IVGMMCUE`).

The numerical code is embedded shallowly over `ℚ` (exact arithmetic in place of
IEEE doubles), with `Matrix (Fin n) (Fin k) ℚ` for the dense 2-d numpy arrays.
`numpy.linalg.inv` is embedded as the total function `minv` (the classical
adjugate formula, which agrees with `inv` on every nonsingular input), and
`numpy.linalg.pinv` — the Moore-Penrose pseudo-inverse — is embedded as the
left pseudo-inverse `pinvFC z = (zᵀz)⁻¹zᵀ`, which is proved below to satisfy
the four Penrose equations (and the Moore-Penrose inverse is proved unique),
whenever `z` has full column rank, the situation guaranteed by the model's
input validation.  External collaborators (GMM weight-matrix strategies,
covariance strategies, the LIML generalized-eigenvalue solve whose result is
irrational in general) are passed as parameters.
-/

namespace LinearModels

open Matrix

/-- Determinant by Laplace cofactor expansion along the first row.  Agrees
with `Matrix.det` (see `detQ_eq_det`) but reduces in the kernel, so concrete
instances can be settled by `decide`. -/
def detQ : {k : ℕ} → Matrix (Fin k) (Fin k) ℚ → ℚ
  | 0, _ => 1
  | k + 1, A =>
    ∑ j : Fin (k + 1),
      (-1) ^ (j : ℕ) * A 0 j * detQ (A.submatrix Fin.succ j.succAbove)

/-- Adjugate by cofactors.  Agrees with `Matrix.adjugate` (see
`adjQ_eq_adjugate`) but reduces in the kernel. -/
def adjQ : {k : ℕ} → Matrix (Fin k) (Fin k) ℚ → Matrix (Fin k) (Fin k) ℚ
  | 0, _ => 1
  | _ + 1, A =>
    Matrix.of fun i j =>
      (-1) ^ ((j : ℕ) + (i : ℕ)) * detQ (A.submatrix j.succAbove i.succAbove)

/-- Matrix inverse by the adjugate formula, `inv A = det(A)⁻¹ • adj(A)`.
This is a computable version of `Matrix.inv` over `ℚ` and embeds
`numpy.linalg.inv`, which is only ever applied to nonsingular input in
`model.py`; on such input the two agree entrywise. -/
def minv {k : ℕ} (A : Matrix (Fin k) (Fin k) ℚ) : Matrix (Fin k) (Fin k) ℚ :=
  (detQ A)⁻¹ • adjQ A

/-- Left pseudo-inverse `(zᵀz)⁻¹ zᵀ` of a rectangular matrix; equals the
Moore-Penrose pseudo-inverse computed by `numpy.linalg.pinv` whenever `z` has
full column rank (see `isPinv_pinvFC` and `pinv_unique`). -/
def pinvFC {n m : ℕ} (z : Matrix (Fin n) (Fin m) ℚ) : Matrix (Fin m) (Fin n) ℚ :=
  minv (zᵀ * z) * zᵀ

/-- The four Penrose equations over `ℚ` (where the conjugate transpose is the
plain transpose): `p` is the Moore-Penrose pseudo-inverse of `z` iff
`zpz = z`, `pzp = p`, and both `zp` and `pz` are symmetric. -/
def IsPinv {n m : ℕ} (z : Matrix (Fin n) (Fin m) ℚ)
    (p : Matrix (Fin m) (Fin n) ℚ) : Prop :=
  z * p * z = z ∧ p * z * p = p ∧ (z * p)ᵀ = z * p ∧ (p * z)ᵀ = p * z

namespace IVLS

/-- Embedding of the static `_IVLSModelBase.estimate_parameters(x, y, z, kappa)`
(model.py lines 533-564):

    pinvz = pinv(z)
    p1 = (x.T @ x) * (1 - kappa) + kappa * ((x.T @ z) @ (pinvz @ x))
    p2 = (x.T @ y) * (1 - kappa) + kappa * ((x.T @ z) @ (pinvz @ y))
    return inv(p1) @ p2
-/
def estimate_parameters {n k m : ℕ} (x : Matrix (Fin n) (Fin k) ℚ)
    (y : Matrix (Fin n) (Fin 1) ℚ) (z : Matrix (Fin n) (Fin m) ℚ)
    (kappa : ℚ) : Matrix (Fin k) (Fin 1) ℚ :=
  let pinvz := pinvFC z
  let p1 := (1 - kappa) • (xᵀ * x) + kappa • ((xᵀ * z) * (pinvz * x))
  let p2 := (1 - kappa) • (xᵀ * y) + kappa • ((xᵀ * z) * (pinvz * y))
  minv p1 * p2

/-- Result payload of `_IVLSModelBase.fit` restricted to the fields the claims
are about: the κ actually used for estimation (stored as `"kappa"` in the
results dictionary, line 651), the LIML eigenvalue estimate (stored as
`"liml_kappa"`), and the point estimate. -/
structure KClassFitResult (k : ℕ) where
  usedKappa : ℚ
  limlKappa : ℚ
  params : Matrix (Fin k) (Fin 1) ℚ

/-- Embedding of the κ-resolution and estimation part of
`_IVLSModelBase.fit` (model.py lines 629-651):

    liml_kappa = self._estimate_kappa()
    kappa = self._kappa
    if kappa is not None:
        est_kappa = kappa
    else:
        est_kappa = liml_kappa
    if self._fuller != 0:
        nobs, ninstr = wz.shape
        est_kappa -= self._fuller / (nobs - ninstr)
    params = self.estimate_parameters(wx, wy, wz, est_kappa)

`_estimate_kappa` (lines 566-580) solves a symmetric eigenvalue problem whose
smallest eigenvalue is irrational in general, so its result is taken as the
parameter `limlKappa`; nothing below depends on its value. -/
def fit {n k m : ℕ} (wx : Matrix (Fin n) (Fin k) ℚ)
    (wy : Matrix (Fin n) (Fin 1) ℚ) (wz : Matrix (Fin n) (Fin m) ℚ)
    (kappaOpt : Option ℚ) (fuller : ℚ) (limlKappa : ℚ) : KClassFitResult k :=
  let estKappa0 :=
    match kappaOpt with
    | some kp => kp
    | none => limlKappa
  let estKappa :=
    if fuller ≠ 0 then estKappa0 - fuller / ((n : ℚ) - (m : ℚ)) else estKappa0
  { usedKappa := estKappa, limlKappa := limlKappa,
    params := estimate_parameters wx wy wz estKappa }

end IVLS

namespace IVGMM

/-- Embedding of the static `IVGMM.estimate_parameters(x, y, z, w)`
(model.py lines 1124-1150):

    xpz = x.T @ z
    zpy = z.T @ y
    return inv(xpz @ w @ xpz.T) @ (xpz @ w @ zpy)
-/
def estimate_parameters {n k m : ℕ} (x : Matrix (Fin n) (Fin k) ℚ)
    (y : Matrix (Fin n) (Fin 1) ℚ) (z : Matrix (Fin n) (Fin m) ℚ)
    (w : Matrix (Fin m) (Fin m) ℚ) : Matrix (Fin k) (Fin 1) ℚ :=
  let xpz := xᵀ * z
  let zpy := zᵀ * y
  minv (xpz * w * xpzᵀ) * (xpz * w * zpy)

/-- Loop state of `IVGMM.fit`: the mutable locals `params`, `wmat`, `vinv`,
`norm`, `iters` of model.py lines 1221-1237 (`_params` always holds the
previous `params` at the loop head, so it needs no separate field). -/
structure FitState (k m : ℕ) where
  params : Matrix (Fin k) (Fin 1) ℚ
  wmat : Matrix (Fin m) (Fin m) ℚ
  vinv : Matrix (Fin k) (Fin k) ℚ
  norm : ℚ
  iters : ℕ

/-- One pass of the while-loop body of `IVGMM.fit` (model.py lines 1226-1237):

    eps = wy - wx @ params
    wmat = inv(weight_matrix(wx, wz, eps))
    params = self.estimate_parameters(wx, wy, wz, wmat)
    delta = params - _params
    if iters == 1:
        xpz = wx.T @ wz / nobs
        v = (xpz @ wmat @ xpz.T) / nobs
        vinv = inv(v)
    _params = params
    norm = delta.T @ vinv @ delta
    iters += 1

The GMM weight-matrix strategy (`linearmodels.iv.gmm`, an external
collaborator) is passed as the function `weight_matrix`. -/
def fitStep {n k m : ℕ} (wx : Matrix (Fin n) (Fin k) ℚ)
    (wy : Matrix (Fin n) (Fin 1) ℚ) (wz : Matrix (Fin n) (Fin m) ℚ)
    (weight_matrix : Matrix (Fin n) (Fin k) ℚ → Matrix (Fin n) (Fin m) ℚ →
      Matrix (Fin n) (Fin 1) ℚ → Matrix (Fin m) (Fin m) ℚ)
    (s : FitState k m) : FitState k m :=
  let eps := wy - wx * s.params
  let wmat := minv (weight_matrix wx wz eps)
  let params := estimate_parameters wx wy wz wmat
  let delta := params - s.params
  let xpz := (n : ℚ)⁻¹ • (wxᵀ * wz)
  let v := (n : ℚ)⁻¹ • (xpz * wmat * xpzᵀ)
  let vinv := if s.iters = 1 then minv v else s.vinv
  { params := params, wmat := wmat, vinv := vinv,
    norm := (deltaᵀ * vinv * delta) 0 0, iters := s.iters + 1 }

/-- The while-loop `while iters < iter_limit and norm > tol` of `IVGMM.fit`
(model.py line 1226), with explicit fuel.  Since `iters` starts at 1 and
increases by 1 each pass, any fuel of at least `iter_limit` makes the loop
stop through its own guard, exactly as in the source. -/
def fitLoop {n k m : ℕ} (wx : Matrix (Fin n) (Fin k) ℚ)
    (wy : Matrix (Fin n) (Fin 1) ℚ) (wz : Matrix (Fin n) (Fin m) ℚ)
    (weight_matrix : Matrix (Fin n) (Fin k) ℚ → Matrix (Fin n) (Fin m) ℚ →
      Matrix (Fin n) (Fin 1) ℚ → Matrix (Fin m) (Fin m) ℚ)
    (iter_limit : ℕ) (tol : ℚ) : ℕ → FitState k m → FitState k m
  | 0, s => s
  | fuel + 1, s =>
    if s.iters < iter_limit ∧ tol < s.norm then
      fitLoop wx wy wz weight_matrix iter_limit tol fuel
        (fitStep wx wy wz weight_matrix s)
    else s

/-- Result payload of `IVGMM.fit` restricted to the fields the claims are
about: point estimate, final weight matrix and the reported `"iterations"`
entry (model.py lines 1244-1249 and 1251-1264). -/
structure FitResult (k m : ℕ) where
  params : Matrix (Fin k) (Fin 1) ℚ
  wmat : Matrix (Fin m) (Fin m) ℚ
  iterations : ℕ

/-- Embedding of `IVGMM.fit` (model.py lines 1152-1249):

    wmat = inv(wz.T @ wz / nobs) if initial_weight is None else initial_weight
    sv = IV2SLS(self.dependent, self.exog, self.endog, self.instruments,
                weights=self.weights)
    _params = params = asarray(sv.fit().params)[:, None]
    iters, norm = 1, 10 * tol + 1
    vinv = eye(params.shape[0])
    while iters < iter_limit and norm > tol: ...

The internal `IV2SLS(...).fit()` starting value re-runs the 2SLS pipeline on
the same data and weights, producing the k-class estimate at κ = 1 on the
same weighted matrices, which is how it is embedded here. -/
def fit {n k m : ℕ} (wx : Matrix (Fin n) (Fin k) ℚ)
    (wy : Matrix (Fin n) (Fin 1) ℚ) (wz : Matrix (Fin n) (Fin m) ℚ)
    (weight_matrix : Matrix (Fin n) (Fin k) ℚ → Matrix (Fin n) (Fin m) ℚ →
      Matrix (Fin n) (Fin 1) ℚ → Matrix (Fin m) (Fin m) ℚ)
    (iter_limit : ℕ) (tol : ℚ)
    (initial_weight : Option (Matrix (Fin m) (Fin m) ℚ)) : FitResult k m :=
  let wmat0 :=
    match initial_weight with
    | none => minv ((n : ℚ)⁻¹ • (wzᵀ * wz))
    | some w0 => w0
  let sv := IVLS.estimate_parameters wx wy wz 1
  let s0 : FitState k m :=
    { params := sv, wmat := wmat0, vinv := 1, norm := 10 * tol + 1, iters := 1 }
  let sF := fitLoop wx wy wz weight_matrix iter_limit tol iter_limit s0
  { params := sF.params, wmat := sF.wmat, iterations := sF.iters }

/-- Mean moment-condition vector `g_bar = (z * eps).mean(0)` of
`_IVGMMBase._j_statistic` (model.py line 991): numpy broadcasts the n×1
residual column across the n×m instrument matrix and averages over rows, so
entry `j` is `(Σ_i z i j * eps i) / n`. -/
def gBar {n m : ℕ} (z : Matrix (Fin n) (Fin m) ℚ)
    (eps : Matrix (Fin n) (Fin 1) ℚ) : Fin m → ℚ :=
  fun j => (∑ i, z i j * eps i 0) / (n : ℚ)

/-- The fields of the `WaldTestStatistic` produced by `_j_statistic` that the
claims are about: the statistic value and its degrees of freedom
`ninstr - nvar` (a Python int, hence `ℤ`). -/
structure WaldStat where
  stat : ℚ
  df : ℤ

/-- Positive definiteness of a weight matrix over `ℚ`. -/
def PosDefQ {m : ℕ} (W : Matrix (Fin m) (Fin m) ℚ) : Prop :=
  ∀ v : Fin m → ℚ, v ≠ 0 → 0 < v ⬝ᵥ W.mulVec v

/-- Embedding of `_IVGMMBase._j_statistic(params, weight_mat)`
(model.py lines 986-994):

    y, x, z = self._wy, self._wx, self._wz
    nobs, nvar, ninstr = y.shape[0], x.shape[1], z.shape[1]
    eps = y - x @ params
    g_bar = (z * eps).mean(0)
    stat = float(nobs * g_bar.T @ weight_mat @ g_bar.T)
    return WaldTestStatistic(stat, null, ninstr - nvar)

(`g_bar` is one-dimensional, so both `.T` are no-ops and the quadratic form
is `g_bar' W g_bar`.) -/
def j_statistic {n k m : ℕ} (wy : Matrix (Fin n) (Fin 1) ℚ)
    (wx : Matrix (Fin n) (Fin k) ℚ) (wz : Matrix (Fin n) (Fin m) ℚ)
    (params : Matrix (Fin k) (Fin 1) ℚ)
    (weight_mat : Matrix (Fin m) (Fin m) ℚ) : WaldStat :=
  let eps := wy - wx * params
  let g_bar := gBar wz eps
  { stat := (n : ℚ) * (g_bar ⬝ᵥ weight_mat.mulVec g_bar),
    df := (m : ℤ) - (k : ℤ) }

end IVGMM

/-- The weighted-data state cached by `_IVModelBase.__init__` (model.py lines
183-192) after validation: the raw dependent column `_y`, the raw regressor
matrix `_x = [exog endog]`, the caller-supplied observation weights, and
`w = sqrt(self.weights.ndarray)` — the elementwise square root of the
normalized weights `weights / nanmean(weights)` (line 179).  Square roots of
rationals are irrational in general, so `sw` carries the value numpy computes
together with its two defining properties: `sw_sq` says its square is the
normalized weight and `sw_nonneg` that it is the nonnegative root. -/
structure IVModel (n k : ℕ) where
  y : Matrix (Fin n) (Fin 1) ℚ
  x : Matrix (Fin n) (Fin k) ℚ
  rawWeights : Fin n → ℚ
  sw : Fin n → ℚ
  sw_nonneg : ∀ i, 0 ≤ sw i
  sw_sq : ∀ i, sw i ^ 2 = rawWeights i / ((∑ j, rawWeights j) / (n : ℚ))

/-- Normalized weights `self.weights.ndarray`, i.e.
`weights / nanmean(weights)` (model.py line 179). -/
def weights {n k : ℕ} (mdl : IVModel n k) : Fin n → ℚ :=
  fun i => mdl.rawWeights i / ((∑ j, mdl.rawWeights j) / (n : ℚ))

/-- Weighted dependent `self._wy = self._y * w` (model.py line 186). -/
def wy {n k : ℕ} (mdl : IVModel n k) : Matrix (Fin n) (Fin 1) ℚ :=
  Matrix.of fun i j => mdl.sw i * mdl.y i j

/-- Weighted regressors `self._wx = self._x * w` (model.py line 189). -/
def wx {n k : ℕ} (mdl : IVModel n k) : Matrix (Fin n) (Fin k) ℚ :=
  Matrix.of fun i j => mdl.sw i * mdl.x i j

/-- Embedding of `_IVModelBase.resids(params) = self._y - self._x @ params`
(model.py lines 370-384). -/
def resids {n k : ℕ} (mdl : IVModel n k)
    (params : Matrix (Fin k) (Fin 1) ℚ) : Matrix (Fin n) (Fin 1) ℚ :=
  mdl.y - mdl.x * params

/-- Embedding of `_IVModelBase.wresids(params) = self._wy - self._wx @ params`
(model.py lines 349-368). -/
def wresids {n k : ℕ} (mdl : IVModel n k)
    (params : Matrix (Fin k) (Fin 1) ℚ) : Matrix (Fin n) (Fin 1) ℚ :=
  wy mdl - wx mdl * params

/-- Residual sum of squares `residual_ss = weps.T @ weps` of
`_IVModelBase._post_estimation` (model.py line 420). -/
def residual_ss {n k : ℕ} (mdl : IVModel n k)
    (params : Matrix (Fin k) (Fin 1) ℚ) : ℚ :=
  ∑ i, (wresids mdl params i 0) ^ 2

/-- Weighted average `average(self._y, weights=w)` of the raw dependent
variable, with `w` the normalized weights (model.py line 425). -/
def wavg_y {n k : ℕ} (mdl : IVModel n k) : ℚ :=
  (∑ i, weights mdl i * mdl.y i 0) / (∑ i, weights mdl i)

/-- Total sum of squares of `_IVModelBase._post_estimation` (model.py lines
422-427): `e = self._wy`, demeaned as `e - sqrt(w) * average(y, weights=w)`
exactly when the model has a constant, then `total_ss = e.T @ e`.  The
`has_constant` flag is detected by `linearmodels.utility.has_constant`, an
external helper, and is passed in as `hasConst`. -/
def total_ss {n k : ℕ} (mdl : IVModel n k) (hasConst : Bool) : ℚ :=
  ∑ i, (wy mdl i 0 - (if hasConst then mdl.sw i * wavg_y mdl else 0)) ^ 2

/-- Coefficient of determination `r2 = 1 - residual_ss / total_ss`
(model.py line 428). -/
def r2 {n k : ℕ} (mdl : IVModel n k) (params : Matrix (Fin k) (Fin 1) ℚ)
    (hasConst : Bool) : ℚ :=
  1 - residual_ss mdl params / total_ss mdl hasConst

/-- Concrete one-observation perfect-fit model used by the C9 witness. -/
def witnessModel : IVModel 1 1 where
  y := !![(2 : ℚ)]
  x := !![(1 : ℚ)]
  rawWeights := fun _ => 1
  sw := fun _ => 1
  sw_nonneg := fun _ => by norm_num
  sw_sq := fun _ => by norm_num [Fin.sum_univ_one]

/-- Raw constructor inputs of `_IVModelBase.__init__`: each data component is
a matrix of values together with a per-row missingness mask (the `isnull`
row indicator of the external `IVData` container — `ℚ` has no NaN, so numpy's
NaN marking is carried alongside the values; a masked row's values are
irrelevant). -/
structure RawInput (nobs k1 k2 k3 : ℕ) where
  dependent : Matrix (Fin nobs) (Fin 1) ℚ
  dependentMask : Fin nobs → Bool
  exog : Matrix (Fin nobs) (Fin k1) ℚ
  exogMask : Fin nobs → Bool
  endog : Matrix (Fin nobs) (Fin k2) ℚ
  endogMask : Fin nobs → Bool
  instruments : Matrix (Fin nobs) (Fin k3) ℚ
  instrumentsMask : Fin nobs → Bool
  wts : Fin nobs → ℚ
  wtsMask : Fin nobs → Bool

/-- Row-wise joint missingness across all components, as computed by
`_IVModelBase._drop_missing` (model.py lines 331-347):
`any(column_stack([dh.isnull for dh in data]), axis=1)` over dependent,
exog, endog, instruments and weights. -/
def missingRow {nobs k1 k2 k3 : ℕ} (r : RawInput nobs k1 k2 k3)
    (i : Fin nobs) : Bool :=
  r.dependentMask i || r.exogMask i || r.endogMask i || r.instrumentsMask i ||
    r.wtsMask i

/-- The rows retained after `_drop_missing` drops jointly-missing rows. -/
def Keep {nobs k1 k2 k3 : ℕ} (r : RawInput nobs k1 k2 k3) : Type :=
  {i : Fin nobs // missingRow r i = false}

instance {nobs k1 k2 k3 : ℕ} (r : RawInput nobs k1 k2 k3) :
    Fintype (Keep r) := Subtype.fintype _

/-- The model regressors `self._x = c_[exog, endog]` on the retained rows
(model.py line 188), indexed by the disjoint union of exog and endog
columns. -/
def xMat {nobs k1 k2 k3 : ℕ} (r : RawInput nobs k1 k2 k3) :
    Matrix (Keep r) (Fin k1 ⊕ Fin k2) ℚ :=
  Matrix.of fun i j =>
    Sum.elim (fun a => r.exog i.1 a) (fun b => r.endog i.1 b) j

/-- The first-stage regressors `self._z = c_[exog, instruments]` on the
retained rows (model.py line 191). -/
def zMat {nobs k1 k2 k3 : ℕ} (r : RawInput nobs k1 k2 k3) :
    Matrix (Keep r) (Fin k1 ⊕ Fin k3) ℚ :=
  Matrix.of fun i j =>
    Sum.elim (fun a => r.exog i.1 a) (fun b => r.instruments i.1 b) j

/-- Full column rank expressed through the Gram determinant: over `ℚ` this is
equivalent to `matrix_rank(A) == A.shape[1]`, the check
`numpy.linalg.matrix_rank` performs in `_validate_inputs`
(see `fullColRank_iff_rank_eq`). -/
def fullColRank {R C : Type*} [Fintype R] [Fintype C] [DecidableEq C]
    (A : Matrix R C ℚ) : Prop :=
  (Aᵀ * A).det ≠ 0

instance {R C : Type*} [Fintype R] [Fintype C] [DecidableEq C]
    (A : Matrix R C ℚ) : Decidable (fullColRank A) := by
  unfold fullColRank
  infer_instance

/-- The distinct `ValueError`s raised during construction. -/
inductive ValidationFailure
  | nonPositiveWeights
  | allMissing
  | noRegressors
  | underIdentified
  | rankDeficientX
  | rankDeficientZ

/-- Embedding of the validating part of `_IVModelBase.__init__` (model.py
lines 156-230), in source order: the strictly-positive-weights check on the
raw weights (line 177, where a NaN weight compares false and so does not
trigger), `_drop_missing`'s all-rows-missing check (lines 331-347), then
`_validate_inputs` (lines 313-329): at least one regressor, at least as many
instruments as endogenous regressors, and full column rank of
`x = [exog endog]` and `z = [exog instruments]` on the retained rows.
On success the validated regressor matrices are returned. -/
def construct {nobs k1 k2 k3 : ℕ} (r : RawInput nobs k1 k2 k3) :
    Except ValidationFailure
      (Matrix (Keep r) (Fin k1 ⊕ Fin k2) ℚ ×
        Matrix (Keep r) (Fin k1 ⊕ Fin k3) ℚ) :=
  if ∃ i, r.wtsMask i = false ∧ r.wts i ≤ 0 then
    .error .nonPositiveWeights
  else if ∀ i, missingRow r i = true then
    .error .allMissing
  else if k1 + k2 = 0 then
    .error .noRegressors
  else if k3 < k2 then
    .error .underIdentified
  else if ¬ fullColRank (xMat r) then
    .error .rankDeficientX
  else if ¬ fullColRank (zMat r) then
    .error .rankDeficientZ
  else
    .ok (xMat r, zMat r)

/-- A `**weight_config` kwargs dict: the `center` entry the IVGMMCUE
constructor touches (`none` = key absent), plus all remaining entries,
abstracted as `rest`. -/
structure WeightConfig (α : Type) where
  center : Option Bool
  rest : α

/-- The piece of `_IVGMMBase.__init__` state observable by later `fit`
calls that the frame-effect claim is about: the constructed weight-matrix
strategy `self._weight = weight_matrix_estimator(**weight_config)`
(model.py line 967). -/
structure GMMBaseState (σ : Type) where
  weight : σ

/-- Embedding of `_IVGMMBase.__init__` (model.py lines 952-969), with the
external weight-matrix strategy constructor passed as a function. -/
def gmmBaseInit {α σ : Type} (weight_matrix_estimator : WeightConfig α → σ)
    (cfg : WeightConfig α) : GMMBaseState σ :=
  { weight := weight_matrix_estimator cfg }

/-- Embedding of `IVGMMCUE.__init__` (model.py lines 1316-1338): first
`super().__init__(..., **weight_config)` builds the strategy from the
original config; only afterwards does

    if "center" not in weight_config:
        weight_config["center"] = True

mutate the local kwargs dict, which is never read again before the
constructor returns. -/
def cueInit {α σ : Type} (weight_matrix_estimator : WeightConfig α → σ)
    (cfg : WeightConfig α) : GMMBaseState σ :=
  let st := gmmBaseInit weight_matrix_estimator cfg
  let cfgAfter :=
    if cfg.center = none then { cfg with center := some true } else cfg
  let _ := cfgAfter
  st

end LinearModels

namespace LinearModels

open Matrix

theorem detQ_eq_det : ∀ {k : ℕ} (A : Matrix (Fin k) (Fin k) ℚ), detQ A = A.det
  | 0, A => by
    rw [detQ, Matrix.det_isEmpty]
  | k + 1, A => by
    rw [detQ, Matrix.det_succ_row_zero]
    exact Finset.sum_congr rfl fun j _ => by rw [detQ_eq_det]

theorem adjQ_eq_adjugate {k : ℕ} (A : Matrix (Fin k) (Fin k) ℚ) :
    adjQ A = A.adjugate := by
  match k with
  | 0 => ext i j; exact i.elim0
  | k + 1 =>
    ext i j
    rw [adjQ, Matrix.adjugate_fin_succ_eq_det_submatrix, Matrix.of_apply,
      detQ_eq_det]

theorem minv_eq_inv {k : ℕ} (A : Matrix (Fin k) (Fin k) ℚ) : minv A = A⁻¹ := by
  rw [minv, Matrix.inv_def, Ring.inverse_eq_inv, detQ_eq_det, adjQ_eq_adjugate]

theorem minv_mul_self {k : ℕ} {A : Matrix (Fin k) (Fin k) ℚ} (h : detQ A ≠ 0) :
    minv A * A = 1 := by
  rw [minv_eq_inv]
  rw [detQ_eq_det] at h
  exact Matrix.nonsing_inv_mul A (isUnit_iff_ne_zero.mpr h)

theorem self_mul_minv {k : ℕ} {A : Matrix (Fin k) (Fin k) ℚ} (h : detQ A ≠ 0) :
    A * minv A = 1 := by
  rw [minv_eq_inv]
  rw [detQ_eq_det] at h
  exact Matrix.mul_nonsing_inv A (isUnit_iff_ne_zero.mpr h)

theorem pinvFC_mul_self {n m : ℕ} {z : Matrix (Fin n) (Fin m) ℚ}
    (hz : detQ (zᵀ * z) ≠ 0) : pinvFC z * z = 1 := by
  rw [pinvFC, Matrix.mul_assoc]
  exact minv_mul_self hz

/-- Under full column rank, the left pseudo-inverse `(zᵀz)⁻¹zᵀ` satisfies all
four Penrose equations, i.e. it is the Moore-Penrose pseudo-inverse of `z`. -/
theorem isPinv_pinvFC {n m : ℕ} {z : Matrix (Fin n) (Fin m) ℚ}
    (hz : detQ (zᵀ * z) ≠ 0) : IsPinv z (pinvFC z) := by
  have hpz : pinvFC z * z = 1 := pinvFC_mul_self hz
  have hgram : (zᵀ * z)ᵀ = zᵀ * z := by
    rw [Matrix.transpose_mul, Matrix.transpose_transpose]
  have hsymm : ((zᵀ * z)⁻¹)ᵀ = (zᵀ * z)⁻¹ := by
    rw [Matrix.transpose_nonsing_inv, hgram]
  refine ⟨?_, ?_, ?_, ?_⟩
  · rw [Matrix.mul_assoc, hpz, Matrix.mul_one]
  · rw [Matrix.mul_assoc, ← Matrix.mul_assoc (pinvFC z) z (pinvFC z), hpz,
      Matrix.one_mul]
  · rw [pinvFC, minv_eq_inv, Matrix.transpose_mul, Matrix.transpose_mul,
      Matrix.transpose_transpose, hsymm, Matrix.mul_assoc]
  · rw [hpz, Matrix.transpose_one]

/-- Uniqueness of the Moore-Penrose pseudo-inverse: any two matrices satisfying
the four Penrose equations for the same `z` coincide. -/
theorem pinv_unique {n m : ℕ} {z : Matrix (Fin n) (Fin m) ℚ}
    {p q : Matrix (Fin m) (Fin n) ℚ} (hp : IsPinv z p) (hq : IsPinv z q) :
    p = q := by
  obtain ⟨hp1, hp2, hp3, hp4⟩ := hp
  obtain ⟨hq1, hq2, hq3, hq4⟩ := hq
  have hzp : z * p = z * q := by
    calc z * p = (z * p)ᵀ := hp3.symm
    _ = ((z * q * z) * p)ᵀ := by rw [hq1]
    _ = (z * p)ᵀ * (z * q)ᵀ := by
        rw [← Matrix.transpose_mul, Matrix.mul_assoc (z * q) z p]
    _ = (z * p) * (z * q) := by rw [hp3, hq3]
    _ = (z * p * z) * q := by rw [Matrix.mul_assoc (z * p) z q]
    _ = z * q := by rw [hp1]
  have hpz : p * z = q * z := by
    calc p * z = (p * z)ᵀ := hp4.symm
    _ = (p * (z * q * z))ᵀ := by rw [hq1]
    _ = (q * z)ᵀ * (p * z)ᵀ := by
        rw [← Matrix.transpose_mul, ← Matrix.mul_assoc, ← Matrix.mul_assoc,
          Matrix.mul_assoc (p * z) q z]
    _ = (q * z) * (p * z) := by rw [hp4, hq4]
    _ = q * (z * p * z) := by
        rw [Matrix.mul_assoc q z (p * z), Matrix.mul_assoc z p z]
    _ = q * z := by rw [hp1]
  calc p = p * z * p := hp2.symm
  _ = q * z * p := by rw [hpz]
  _ = q * (z * p) := Matrix.mul_assoc q z p
  _ = q * (z * q) := by rw [hzp]
  _ = q * z * q := (Matrix.mul_assoc q z q).symm
  _ = q := hq2

/-- C1: the static k-class `estimate_parameters` returns `inv(P1) @ P2` with
`P1 = x'x(1-κ) + κ(x'z)(pinv(z)x)` and `P2 = x'y(1-κ) + κ(x'z)(pinv(z)y)`,
where `pinv(z)` is the (unique) Moore-Penrose pseudo-inverse of `z` — the
matrix satisfying the four Penrose equations — and not a plain inverse. -/
theorem C1_estimate_parameters_kclass_formula {n k m : ℕ}
    (x : Matrix (Fin n) (Fin k) ℚ) (y : Matrix (Fin n) (Fin 1) ℚ)
    (z : Matrix (Fin n) (Fin m) ℚ) (kappa : ℚ)
    (hz : detQ (zᵀ * z) ≠ 0) :
    IsPinv z (pinvFC z) ∧
    (∀ p, IsPinv z p → p = pinvFC z) ∧
    IVLS.estimate_parameters x y z kappa =
      minv ((1 - kappa) • (xᵀ * x) + kappa • ((xᵀ * z) * (pinvFC z * x))) *
        ((1 - kappa) • (xᵀ * y) + kappa • ((xᵀ * z) * (pinvFC z * y))) := by
  refine ⟨isPinv_pinvFC hz, fun p hp => pinv_unique hp (isPinv_pinvFC hz), rfl⟩

/-- Witness for C1 at a concrete full-column-rank instrument matrix. -/
theorem C1_witness :
    detQ ((!![(1 : ℚ); 0] : Matrix (Fin 2) (Fin 1) ℚ)ᵀ *
        (!![(1 : ℚ); 0] : Matrix (Fin 2) (Fin 1) ℚ)) ≠ 0 ∧
    IsPinv (!![(1 : ℚ); 0] : Matrix (Fin 2) (Fin 1) ℚ)
      (pinvFC (!![(1 : ℚ); 0] : Matrix (Fin 2) (Fin 1) ℚ)) :=
  ⟨by norm_num [detQ, Fin.sum_univ_succ, Matrix.mul_apply],
    (C1_estimate_parameters_kclass_formula
      (!![(1 : ℚ); 1] : Matrix (Fin 2) (Fin 1) ℚ)
      (!![(2 : ℚ); 3] : Matrix (Fin 2) (Fin 1) ℚ)
      (!![(1 : ℚ); 0] : Matrix (Fin 2) (Fin 1) ℚ) 1
      (by norm_num [detQ, Fin.sum_univ_succ, Matrix.mul_apply])).1⟩

/-- C2: the k-class closed form specializes algebraically: at `κ = 1` it is
the 2SLS estimator `(X'Z(Z'Z)⁻¹Z'X)⁻¹ X'Z(Z'Z)⁻¹Z'Y` and at `κ = 0` it is the
OLS estimator `(x'x)⁻¹ x'y` on `x`. -/
theorem C2_kclass_specializations {n k m : ℕ}
    (x : Matrix (Fin n) (Fin k) ℚ) (y : Matrix (Fin n) (Fin 1) ℚ)
    (z : Matrix (Fin n) (Fin m) ℚ) (_hz : detQ (zᵀ * z) ≠ 0) :
    IVLS.estimate_parameters x y z 1 =
      minv ((xᵀ * z) * minv (zᵀ * z) * (zᵀ * x)) *
        ((xᵀ * z) * minv (zᵀ * z) * (zᵀ * y)) ∧
    IVLS.estimate_parameters x y z 0 = minv (xᵀ * x) * (xᵀ * y) := by
  have h1 : pinvFC z * x = minv (zᵀ * z) * (zᵀ * x) := by
    rw [pinvFC, Matrix.mul_assoc]
  have h2 : pinvFC z * y = minv (zᵀ * z) * (zᵀ * y) := by
    rw [pinvFC, Matrix.mul_assoc]
  constructor
  · simp only [IVLS.estimate_parameters, sub_self, zero_smul, one_smul,
      zero_add, h1, h2, Matrix.mul_assoc]
  · simp only [IVLS.estimate_parameters, sub_zero, one_smul, zero_smul,
      add_zero]

/-- Witness for C2 at a concrete full-column-rank instrument matrix. -/
theorem C2_witness :
    detQ ((!![(1 : ℚ); 0; 0] : Matrix (Fin 3) (Fin 1) ℚ)ᵀ *
        (!![(1 : ℚ); 0; 0] : Matrix (Fin 3) (Fin 1) ℚ)) ≠ 0 ∧
    IVLS.estimate_parameters (!![(1 : ℚ); 1; 2] : Matrix (Fin 3) (Fin 1) ℚ)
        (!![(2 : ℚ); 3; 5] : Matrix (Fin 3) (Fin 1) ℚ)
        (!![(1 : ℚ); 0; 0] : Matrix (Fin 3) (Fin 1) ℚ) 0 =
      minv ((!![(1 : ℚ); 1; 2] : Matrix (Fin 3) (Fin 1) ℚ)ᵀ *
          (!![(1 : ℚ); 1; 2] : Matrix (Fin 3) (Fin 1) ℚ)) *
        ((!![(1 : ℚ); 1; 2] : Matrix (Fin 3) (Fin 1) ℚ)ᵀ *
          (!![(2 : ℚ); 3; 5] : Matrix (Fin 3) (Fin 1) ℚ)) :=
  ⟨by norm_num [detQ, Fin.sum_univ_succ, Matrix.mul_apply],
    (C2_kclass_specializations
      (!![(1 : ℚ); 1; 2] : Matrix (Fin 3) (Fin 1) ℚ)
      (!![(2 : ℚ); 3; 5] : Matrix (Fin 3) (Fin 1) ℚ)
      (!![(1 : ℚ); 0; 0] : Matrix (Fin 3) (Fin 1) ℚ)
      (by norm_num [detQ, Fin.sum_univ_succ, Matrix.mul_apply])).2⟩

/-- C3 counterexample: a model built with an explicit `kappa = 1` and
`fuller = 1` on a 3-observation, 1-instrument design uses
`κ = 1 - 1/(3-1) = 1/2`, not the caller-supplied value `1`: the Fuller
adjustment is applied even though `kappa` was supplied explicitly. -/
theorem C3_counterexample :
    (IVLS.fit (!![(1 : ℚ); 1; 1] : Matrix (Fin 3) (Fin 1) ℚ)
        (!![(2 : ℚ); 3; 4] : Matrix (Fin 3) (Fin 1) ℚ)
        (!![(1 : ℚ); 0; 0] : Matrix (Fin 3) (Fin 1) ℚ)
        (some 1) 1 7).usedKappa ≠ 1 := by
  norm_num [IVLS.fit]

/-- C3 amended: when an explicit `kappa` is supplied, `fit` skips the LIML
eigenvalue estimate for the used κ, but the Fuller adjustment is still
applied whenever `fuller ≠ 0`: the κ used for estimation is
`kappa - fuller/(n - n_instr)` in that case and exactly the supplied `kappa`
only when `fuller = 0`; the LIML κ is still computed and reported separately,
and the point estimate is the k-class estimate at the used κ. -/
theorem C3_explicit_kappa_fuller_interaction {n k m : ℕ}
    (wx : Matrix (Fin n) (Fin k) ℚ) (wy : Matrix (Fin n) (Fin 1) ℚ)
    (wz : Matrix (Fin n) (Fin m) ℚ) (kp fuller limlKappa : ℚ) :
    (IVLS.fit wx wy wz (some kp) fuller limlKappa).usedKappa =
      (if fuller ≠ 0 then kp - fuller / ((n : ℚ) - (m : ℚ)) else kp) ∧
    (IVLS.fit wx wy wz (some kp) fuller limlKappa).limlKappa = limlKappa ∧
    (IVLS.fit wx wy wz (some kp) fuller limlKappa).params =
      IVLS.estimate_parameters wx wy wz
        ((IVLS.fit wx wy wz (some kp) fuller limlKappa).usedKappa) :=
  ⟨rfl, rfl, rfl⟩

theorem minv_smul {k : ℕ} (c : ℚ) (A : Matrix (Fin k) (Fin k) ℚ)
    (hc : c ≠ 0) : minv (c • A) = c⁻¹ • minv A := by
  match k with
  | 0 => ext i j; exact i.elim0
  | k + 1 =>
    rw [minv_eq_inv, minv_eq_inv, Matrix.inv_def, Matrix.inv_def,
      Ring.inverse_eq_inv, Ring.inverse_eq_inv, Matrix.det_smul,
      Matrix.adjugate_smul, smul_smul, smul_smul, Fintype.card_fin,
      Nat.add_sub_cancel]
    congr 1
    have hck : (c : ℚ) ^ k ≠ 0 := pow_ne_zero k hc
    calc (c ^ (k + 1) * A.det)⁻¹ * c ^ k
        = (c ^ k)⁻¹ * c ^ k * (c⁻¹ * A.det⁻¹) := by
          rw [mul_inv, pow_succ, mul_inv]; ring
      _ = c⁻¹ * A.det⁻¹ := by rw [inv_mul_cancel₀ hck, one_mul]

/-- The 2SLS estimate (k-class at κ = 1) coincides with the GMM estimate
under the default initial weight matrix `inv(z'z/n)`. -/
theorem twoSLS_eq_gmm_default_weight {n k m : ℕ}
    (x : Matrix (Fin n) (Fin k) ℚ) (y : Matrix (Fin n) (Fin 1) ℚ)
    (z : Matrix (Fin n) (Fin m) ℚ) (hn : (n : ℚ) ≠ 0) :
    IVLS.estimate_parameters x y z 1 =
      IVGMM.estimate_parameters x y z (minv ((n : ℚ)⁻¹ • (zᵀ * z))) := by
  have hW : minv ((n : ℚ)⁻¹ • (zᵀ * z)) = (n : ℚ) • minv (zᵀ * z) := by
    rw [minv_smul _ _ (inv_ne_zero hn), inv_inv]
  have hxz : (xᵀ * z)ᵀ = zᵀ * x := by
    rw [Matrix.transpose_mul, Matrix.transpose_transpose]
  simp only [IVGMM.estimate_parameters, hW, IVLS.estimate_parameters,
    sub_self, zero_smul, one_smul, zero_add, pinvFC, hxz,
    Matrix.mul_smul, Matrix.smul_mul, minv_smul _ _ hn, smul_smul,
    inv_mul_cancel₀ hn, mul_inv_cancel₀ hn, one_smul, Matrix.mul_assoc]

/-- C4 counterexample: with a caller-supplied `initial_weight` and
`iter_limit = 1`, the point estimate returned by `IVGMM.fit` is the 2SLS
starting value, not the one-step GMM estimate under the supplied initial
weight matrix.  On `x = (1,1,1)'`, `y = (1,2,4)'`,
`z = ((1,0),(0,1),(1,1))'`, `W₀ = diag(1, 1/4)`, the fit returns `11/4`
while the one-step estimate under `W₀` is `13/5`. -/
theorem C4_counterexample :
    (IVGMM.fit (!![(1 : ℚ); 1; 1] : Matrix (Fin 3) (Fin 1) ℚ)
          (!![(1 : ℚ); 2; 4] : Matrix (Fin 3) (Fin 1) ℚ)
          (!![(1 : ℚ), 0; 0, 1; 1, 1] : Matrix (Fin 3) (Fin 2) ℚ)
          (fun _ _ _ => 1) 1 (1 / 10000)
          (some (!![(1 : ℚ), 0; 0, 1 / 4] : Matrix (Fin 2) (Fin 2) ℚ))).params
        0 0 ≠
      (IVGMM.estimate_parameters (!![(1 : ℚ); 1; 1] : Matrix (Fin 3) (Fin 1) ℚ)
          (!![(1 : ℚ); 2; 4] : Matrix (Fin 3) (Fin 1) ℚ)
          (!![(1 : ℚ), 0; 0, 1; 1, 1] : Matrix (Fin 3) (Fin 2) ℚ)
          (!![(1 : ℚ), 0; 0, 1 / 4] : Matrix (Fin 2) (Fin 2) ℚ)) 0 0 := by
  norm_num [IVGMM.fit, IVGMM.fitLoop, IVGMM.estimate_parameters,
    IVLS.estimate_parameters, pinvFC, minv, detQ, adjQ, Matrix.mul_apply,
    Matrix.smul_apply, Matrix.add_apply, Matrix.submatrix_apply,
    Fin.sum_univ_succ, Fin.succAbove, Fin.lt_def]

/-- C4 amended: `IVGMM.fit` with `iter_limit = 1` performs no weight-matrix
refinement (the reported weight matrix is the initial one) and reports
iteration count 1, but its point estimate is always the 2SLS starting value;
this coincides with the one-step GMM estimate under the *default* initial
weight `inv(z'z/n)`, while a caller-supplied `initial_weight` affects only
the reported weight matrix (hence covariance and J-statistic), not the
point estimate. -/
theorem C4_iter_limit_one {n k m : ℕ} (wx : Matrix (Fin n) (Fin k) ℚ)
    (wy : Matrix (Fin n) (Fin 1) ℚ) (wz : Matrix (Fin n) (Fin m) ℚ)
    (weight_matrix : Matrix (Fin n) (Fin k) ℚ → Matrix (Fin n) (Fin m) ℚ →
      Matrix (Fin n) (Fin 1) ℚ → Matrix (Fin m) (Fin m) ℚ)
    (tol : ℚ) (iw : Option (Matrix (Fin m) (Fin m) ℚ)) (hn : (n : ℚ) ≠ 0) :
    (IVGMM.fit wx wy wz weight_matrix 1 tol iw).iterations = 1 ∧
    (iw = none → (IVGMM.fit wx wy wz weight_matrix 1 tol iw).wmat =
      minv ((n : ℚ)⁻¹ • (wzᵀ * wz))) ∧
    (∀ w0, iw = some w0 →
      (IVGMM.fit wx wy wz weight_matrix 1 tol iw).wmat = w0) ∧
    (IVGMM.fit wx wy wz weight_matrix 1 tol iw).params =
      IVLS.estimate_parameters wx wy wz 1 ∧
    (IVGMM.fit wx wy wz weight_matrix 1 tol iw).params =
      IVGMM.estimate_parameters wx wy wz (minv ((n : ℚ)⁻¹ • (wzᵀ * wz))) := by
  have hloop : ∀ (p : Matrix (Fin k) (Fin 1) ℚ) (w : Matrix (Fin m) (Fin m) ℚ)
      (v : Matrix (Fin k) (Fin k) ℚ) (no : ℚ),
      IVGMM.fitLoop wx wy wz weight_matrix 1 tol 1 ⟨p, w, v, no, 1⟩ =
        ⟨p, w, v, no, 1⟩ := by
    intro p w v no
    rw [IVGMM.fitLoop]
    simp
  refine ⟨?_, ?_, ?_, ?_, ?_⟩
  · simp [IVGMM.fit, hloop]
  · rintro rfl
    simp [IVGMM.fit, hloop]
  · rintro w0 rfl
    simp [IVGMM.fit, hloop]
  · simp [IVGMM.fit, hloop]
  · simp [IVGMM.fit, hloop, twoSLS_eq_gmm_default_weight wx wy wz hn]

/-- Witness for C4 on a concrete 3-observation design. -/
theorem C4_witness :
    ((3 : ℚ) ≠ 0) ∧
    (IVGMM.fit (!![(1 : ℚ); 1; 1] : Matrix (Fin 3) (Fin 1) ℚ)
        (!![(1 : ℚ); 2; 4] : Matrix (Fin 3) (Fin 1) ℚ)
        (!![(1 : ℚ), 0; 0, 1; 1, 1] : Matrix (Fin 3) (Fin 2) ℚ)
        (fun _ _ _ => 1) 1 (1 / 10000) none).iterations = 1 :=
  ⟨by norm_num,
    (C4_iter_limit_one (!![(1 : ℚ); 1; 1] : Matrix (Fin 3) (Fin 1) ℚ)
      (!![(1 : ℚ); 2; 4] : Matrix (Fin 3) (Fin 1) ℚ)
      (!![(1 : ℚ), 0; 0, 1; 1, 1] : Matrix (Fin 3) (Fin 2) ℚ)
      (fun _ _ _ => 1) (1 / 10000) none (by norm_num)).1⟩

theorem fitStep_iters {n k m : ℕ} (wx : Matrix (Fin n) (Fin k) ℚ)
    (wy : Matrix (Fin n) (Fin 1) ℚ) (wz : Matrix (Fin n) (Fin m) ℚ)
    (weight_matrix : Matrix (Fin n) (Fin k) ℚ → Matrix (Fin n) (Fin m) ℚ →
      Matrix (Fin n) (Fin 1) ℚ → Matrix (Fin m) (Fin m) ℚ)
    (s : IVGMM.FitState k m) :
    (IVGMM.fitStep wx wy wz weight_matrix s).iters = s.iters + 1 := rfl

theorem fitStep_vinv_of_iters_ne_one {n k m : ℕ}
    (wx : Matrix (Fin n) (Fin k) ℚ) (wy : Matrix (Fin n) (Fin 1) ℚ)
    (wz : Matrix (Fin n) (Fin m) ℚ)
    (weight_matrix : Matrix (Fin n) (Fin k) ℚ → Matrix (Fin n) (Fin m) ℚ →
      Matrix (Fin n) (Fin 1) ℚ → Matrix (Fin m) (Fin m) ℚ)
    (s : IVGMM.FitState k m) (h : s.iters ≠ 1) :
    (IVGMM.fitStep wx wy wz weight_matrix s).vinv = s.vinv := by
  simp [IVGMM.fitStep, h]

theorem fitStep_iterate_vinv {n k m : ℕ} (wx : Matrix (Fin n) (Fin k) ℚ)
    (wy : Matrix (Fin n) (Fin 1) ℚ) (wz : Matrix (Fin n) (Fin m) ℚ)
    (weight_matrix : Matrix (Fin n) (Fin k) ℚ → Matrix (Fin n) (Fin m) ℚ →
      Matrix (Fin n) (Fin 1) ℚ → Matrix (Fin m) (Fin m) ℚ) :
    ∀ (j : ℕ) (s : IVGMM.FitState k m), 2 ≤ s.iters →
      ((IVGMM.fitStep wx wy wz weight_matrix)^[j] s).vinv = s.vinv := by
  intro j
  induction j with
  | zero => intro s _; rfl
  | succ j ih =>
    intro s hs
    rw [Function.iterate_succ_apply]
    rw [ih (IVGMM.fitStep wx wy wz weight_matrix s)
      (by rw [fitStep_iters]; omega)]
    exact fitStep_vinv_of_iters_ne_one wx wy wz weight_matrix s (by omega)

theorem fitLoop_vinv {n k m : ℕ} (wx : Matrix (Fin n) (Fin k) ℚ)
    (wy : Matrix (Fin n) (Fin 1) ℚ) (wz : Matrix (Fin n) (Fin m) ℚ)
    (weight_matrix : Matrix (Fin n) (Fin k) ℚ → Matrix (Fin n) (Fin m) ℚ →
      Matrix (Fin n) (Fin 1) ℚ → Matrix (Fin m) (Fin m) ℚ)
    (iter_limit : ℕ) (tol : ℚ) :
    ∀ (fuel : ℕ) (s : IVGMM.FitState k m), 2 ≤ s.iters →
      (IVGMM.fitLoop wx wy wz weight_matrix iter_limit tol fuel s).vinv =
        s.vinv := by
  intro fuel
  induction fuel with
  | zero => intro s _; rfl
  | succ fuel ih =>
    intro s hs
    rw [IVGMM.fitLoop]
    by_cases hcond : s.iters < iter_limit ∧ tol < s.norm
    · rw [if_pos hcond]
      rw [ih (IVGMM.fitStep wx wy wz weight_matrix s)
        (by rw [fitStep_iters]; omega)]
      exact fitStep_vinv_of_iters_ne_one wx wy wz weight_matrix s (by omega)
    · rw [if_neg hcond]

/-- C5: in the `IVGMM.fit` iteration loop, `vinv` is computed exactly once —
in the first loop pass (`iters == 1`), from that pass's weight matrix via
`inv((xpz wmat xpz')/n)` with `xpz = x'z/n` — and every later pass of the
loop leaves it unchanged, whether iterated bare (`fitStep`) or through the
bounded while-loop (`fitLoop`) with any limit, tolerance and fuel. -/
theorem C5_vinv_computed_once {n k m : ℕ} (wx : Matrix (Fin n) (Fin k) ℚ)
    (wy : Matrix (Fin n) (Fin 1) ℚ) (wz : Matrix (Fin n) (Fin m) ℚ)
    (weight_matrix : Matrix (Fin n) (Fin k) ℚ → Matrix (Fin n) (Fin m) ℚ →
      Matrix (Fin n) (Fin 1) ℚ → Matrix (Fin m) (Fin m) ℚ)
    (p0 : Matrix (Fin k) (Fin 1) ℚ) (w0 : Matrix (Fin m) (Fin m) ℚ)
    (v0 : Matrix (Fin k) (Fin k) ℚ) (nrm : ℚ) :
    (IVGMM.fitStep wx wy wz weight_matrix ⟨p0, w0, v0, nrm, 1⟩).vinv =
      minv ((n : ℚ)⁻¹ • (((n : ℚ)⁻¹ • (wxᵀ * wz)) *
        (IVGMM.fitStep wx wy wz weight_matrix ⟨p0, w0, v0, nrm, 1⟩).wmat *
        ((n : ℚ)⁻¹ • (wxᵀ * wz))ᵀ)) ∧
    (∀ j : ℕ, ((IVGMM.fitStep wx wy wz weight_matrix)^[j]
        (IVGMM.fitStep wx wy wz weight_matrix ⟨p0, w0, v0, nrm, 1⟩)).vinv =
      (IVGMM.fitStep wx wy wz weight_matrix ⟨p0, w0, v0, nrm, 1⟩).vinv) ∧
    (∀ (iter_limit fuel : ℕ) (tol : ℚ),
      (IVGMM.fitLoop wx wy wz weight_matrix iter_limit tol fuel
        (IVGMM.fitStep wx wy wz weight_matrix ⟨p0, w0, v0, nrm, 1⟩)).vinv =
      (IVGMM.fitStep wx wy wz weight_matrix ⟨p0, w0, v0, nrm, 1⟩).vinv) := by
  refine ⟨by simp [IVGMM.fitStep], ?_, ?_⟩
  · intro j
    exact fitStep_iterate_vinv wx wy wz weight_matrix j _ (by rw [fitStep_iters])
  · intro iter_limit fuel tol
    exact fitLoop_vinv wx wy wz weight_matrix iter_limit tol fuel _
      (by rw [fitStep_iters])

theorem gBar_eq_zero_of_moments {n m : ℕ} {z : Matrix (Fin n) (Fin m) ℚ}
    {eps : Matrix (Fin n) (Fin 1) ℚ} (h : zᵀ * eps = 0) :
    IVGMM.gBar z eps = 0 := by
  funext j
  have hj := Matrix.ext_iff.mpr h j 0
  rw [Matrix.mul_apply] at hj
  simp only [Matrix.transpose_apply] at hj
  simp only [IVGMM.gBar, hj, Matrix.zero_apply, zero_div, Pi.zero_apply]

/-- C6: the GMM J-statistic is `n · ḡ' W ḡ` with `ḡ = mean(z ⊙ eps)`, its
degrees of freedom are `ninstr - nvar`, it is nonnegative whenever the weight
matrix is positive definite, and it vanishes at the GMM estimate whenever the
model is exactly identified (square nonsingular `x'z`, nonsingular `W`), since
the moment conditions are then solved exactly. -/
theorem C6_j_statistic {n k m : ℕ} (wy : Matrix (Fin n) (Fin 1) ℚ)
    (wx : Matrix (Fin n) (Fin k) ℚ) (wz : Matrix (Fin n) (Fin m) ℚ)
    (params : Matrix (Fin k) (Fin 1) ℚ)
    (weight_mat : Matrix (Fin m) (Fin m) ℚ) (hW : IVGMM.PosDefQ weight_mat) :
    (IVGMM.j_statistic wy wx wz params weight_mat).stat =
      (n : ℚ) * (IVGMM.gBar wz (wy - wx * params) ⬝ᵥ
        weight_mat.mulVec (IVGMM.gBar wz (wy - wx * params))) ∧
    (IVGMM.j_statistic wy wx wz params weight_mat).df = (m : ℤ) - (k : ℤ) ∧
    0 ≤ (IVGMM.j_statistic wy wx wz params weight_mat).stat ∧
    (∀ (z' : Matrix (Fin n) (Fin k) ℚ) (w' : Matrix (Fin k) (Fin k) ℚ),
      detQ (wxᵀ * z') ≠ 0 → detQ w' ≠ 0 →
      (IVGMM.j_statistic wy wx z'
        (IVGMM.estimate_parameters wx wy z' w') w').stat = 0) := by
  refine ⟨rfl, rfl, ?_, ?_⟩
  · show 0 ≤ (n : ℚ) * (IVGMM.gBar wz (wy - wx * params) ⬝ᵥ
      weight_mat.mulVec (IVGMM.gBar wz (wy - wx * params)))
    have hq : 0 ≤ IVGMM.gBar wz (wy - wx * params) ⬝ᵥ
        weight_mat.mulVec (IVGMM.gBar wz (wy - wx * params)) := by
      by_cases hg : IVGMM.gBar wz (wy - wx * params) = 0
      · rw [hg]
        simp
      · exact le_of_lt (hW _ hg)
    exact mul_nonneg (by positivity) hq
  · intro z' w' hxz hw'
    rw [detQ_eq_det] at hxz hw'
    have hxzu : IsUnit (wxᵀ * z').det := isUnit_iff_ne_zero.mpr hxz
    have hw'u : IsUnit w'.det := isUnit_iff_ne_zero.mpr hw'
    have hxztu : IsUnit ((wxᵀ * z')ᵀ).det := by
      rw [Matrix.det_transpose]; exact hxzu
    have hAT : z'ᵀ * wx = (wxᵀ * z')ᵀ := by
      rw [Matrix.transpose_mul, Matrix.transpose_transpose]
    have hkey : (wxᵀ * z')ᵀ * IVGMM.estimate_parameters wx wy z' w' =
        z'ᵀ * wy := by
      show (wxᵀ * z')ᵀ *
        (minv ((wxᵀ * z') * w' * (wxᵀ * z')ᵀ) *
          ((wxᵀ * z') * w' * (z'ᵀ * wy))) = z'ᵀ * wy
      rw [minv_eq_inv, Matrix.mul_inv_rev, Matrix.mul_inv_rev]
      simp only [← Matrix.mul_assoc]
      rw [Matrix.mul_nonsing_inv _ hxztu, Matrix.one_mul,
        Matrix.mul_assoc (w'⁻¹ * (wxᵀ * z')⁻¹) wxᵀ z',
        Matrix.mul_assoc (w'⁻¹) ((wxᵀ * z')⁻¹) (wxᵀ * z'),
        Matrix.nonsing_inv_mul _ hxzu, Matrix.mul_one,
        Matrix.nonsing_inv_mul _ hw'u, Matrix.one_mul]
    have heps : z'ᵀ * (wy - wx * IVGMM.estimate_parameters wx wy z' w') = 0 := by
      rw [Matrix.mul_sub, ← Matrix.mul_assoc, hAT, hkey, sub_self]
    show (n : ℚ) * (IVGMM.gBar z' _ ⬝ᵥ w'.mulVec (IVGMM.gBar z' _)) = 0
    rw [gBar_eq_zero_of_moments heps]
    simp

/-- Witness for C6 on a concrete scalar design. -/
theorem C6_witness :
    IVGMM.PosDefQ (!![(1 : ℚ)]) ∧
    0 ≤ (IVGMM.j_statistic (!![(1 : ℚ)]) (!![(1 : ℚ)]) (!![(1 : ℚ)])
      (!![(0 : ℚ)]) (!![(1 : ℚ)])).stat ∧
    detQ ((!![(1 : ℚ)])ᵀ * (!![(1 : ℚ)])) ≠ 0 ∧
    detQ (!![(1 : ℚ)]) ≠ 0 ∧
    (IVGMM.j_statistic (!![(1 : ℚ)]) (!![(1 : ℚ)]) (!![(1 : ℚ)])
      (IVGMM.estimate_parameters (!![(1 : ℚ)]) (!![(1 : ℚ)]) (!![(1 : ℚ)])
        (!![(1 : ℚ)])) (!![(1 : ℚ)])).stat = 0 := by
  have hdet : detQ ((!![(1 : ℚ)])ᵀ * (!![(1 : ℚ)])) ≠ 0 := by
    norm_num [detQ, Fin.sum_univ_succ, Matrix.mul_apply]
  have hdet1 : detQ (!![(1 : ℚ)]) ≠ 0 := by
    norm_num [detQ, Fin.sum_univ_succ]
  have hpd : IVGMM.PosDefQ (!![(1 : ℚ)]) := by
    intro v hv
    have hv0 : v 0 ≠ 0 := by
      intro h0
      apply hv
      funext i
      fin_cases i
      exact h0
    have hval : v ⬝ᵥ (!![(1 : ℚ)]).mulVec v = v 0 * v 0 := by
      simp [Matrix.dotProduct, Matrix.mulVec, Fin.sum_univ_one]
    rw [hval]
    exact mul_self_pos.mpr hv0
  refine ⟨hpd, ?_, hdet, hdet1, ?_⟩
  · exact (C6_j_statistic (!![(1 : ℚ)]) (!![(1 : ℚ)]) (!![(1 : ℚ)])
      (!![(0 : ℚ)]) (!![(1 : ℚ)]) hpd).2.2.1
  · exact (C6_j_statistic (!![(1 : ℚ)]) (!![(1 : ℚ)]) (!![(1 : ℚ)])
      (!![(0 : ℚ)]) (!![(1 : ℚ)]) hpd).2.2.2 (!![(1 : ℚ)]) (!![(1 : ℚ)])
      hdet hdet1

/-- C7: `resids` and `wresids` are the stated pure functions of `params` on
the cached data — `y - x·params` on the raw data and `wy - wx·params` on the
weighted data — for every parameter vector, and the weighted residuals are
the square root of the normalized weights elementwise times the raw
residuals. -/
theorem C7_resids_wresids_roundtrip {n k : ℕ} (mdl : IVModel n k)
    (params : Matrix (Fin k) (Fin 1) ℚ) :
    resids mdl params = mdl.y - mdl.x * params ∧
    wresids mdl params = wy mdl - wx mdl * params ∧
    (∀ i, wresids mdl params i 0 = mdl.sw i * resids mdl params i 0) ∧
    (∀ i, mdl.sw i ^ 2 = weights mdl i ∧ 0 ≤ mdl.sw i) := by
  refine ⟨rfl, rfl, ?_, fun i => ⟨mdl.sw_sq i, mdl.sw_nonneg i⟩⟩
  intro i
  simp only [wresids, resids, wy, wx, Matrix.sub_apply, Matrix.mul_apply,
    Matrix.of_apply, mul_sub, Finset.mul_sum]
  congr 1
  exact Finset.sum_congr rfl fun j _ => by ring

/-- C9: shared post-estimation computes `R² = 1 - RSS/TSS`, with TSS taken
from the weighted dependent variable demeaned by its weighted average exactly
when the model has a constant (and not demeaned otherwise), and `R² = 1`
whenever the weighted residuals at the fitted parameters vanish
identically. -/
theorem C9_r2_post_estimation {n k : ℕ} (mdl : IVModel n k)
    (params : Matrix (Fin k) (Fin 1) ℚ) (hasConst : Bool) :
    r2 mdl params hasConst =
      1 - residual_ss mdl params / total_ss mdl hasConst ∧
    total_ss mdl true = ∑ i, (wy mdl i 0 - mdl.sw i * wavg_y mdl) ^ 2 ∧
    total_ss mdl false = ∑ i, (wy mdl i 0) ^ 2 ∧
    ((∀ i, wresids mdl params i 0 = 0) → r2 mdl params hasConst = 1) := by
  refine ⟨rfl, by simp [total_ss], by simp [total_ss], ?_⟩
  intro h
  have hrss : residual_ss mdl params = 0 := by
    simp [residual_ss, h]
  rw [r2, hrss, zero_div, sub_zero]

/-- Witness for C9 on a one-observation perfect fit. -/
theorem C9_witness :
    (∀ i, wresids witnessModel (!![(2 : ℚ)]) i 0 = 0) ∧
    r2 witnessModel (!![(2 : ℚ)]) true = 1 := by
  have h : ∀ i, wresids witnessModel (!![(2 : ℚ)]) i 0 = 0 := by
    intro i
    fin_cases i
    norm_num [wresids, wy, wx, witnessModel, Matrix.mul_apply,
      Fin.sum_univ_one, Matrix.sub_apply]
  exact ⟨h, (C9_r2_post_estimation witnessModel (!![(2 : ℚ)]) true).2.2.2 h⟩

/-- Over `ℚ`, the Gram-determinant criterion coincides with numpy's
`matrix_rank(A) == A.shape[1]`. -/
theorem fullColRank_iff_rank_eq {R C : Type*} [Fintype R] [Fintype C]
    [DecidableEq C] (A : Matrix R C ℚ) :
    fullColRank A ↔ A.rank = Fintype.card C := by
  constructor
  · intro h
    rw [← Matrix.rank_transpose_mul_self]
    exact Matrix.rank_of_isUnit _
      ((Matrix.isUnit_iff_isUnit_det _).mpr (isUnit_iff_ne_zero.mpr h))
  · intro h hdet
    obtain ⟨v, hv, hzero⟩ := Matrix.exists_mulVec_eq_zero_iff.mpr hdet
    rw [← Matrix.rank_transpose_mul_self] at h
    have h2 := LinearMap.finrank_range_add_finrank_ker ((Aᵀ * A).mulVecLin)
    rw [Module.finrank_pi] at h2
    have h3 : Module.finrank ℚ
        (LinearMap.range (Aᵀ * A).mulVecLin) = Fintype.card C := h
    have h4 : Module.finrank ℚ (LinearMap.ker (Aᵀ * A).mulVecLin) = 0 := by
      omega
    have hker : LinearMap.ker (Aᵀ * A).mulVecLin = ⊥ :=
      Submodule.finrank_eq_zero.mp h4
    have hv' : v ∈ LinearMap.ker (Aᵀ * A).mulVecLin := by
      rw [LinearMap.mem_ker, Matrix.mulVecLin_apply, hzero]
    rw [hker] at hv'
    exact hv ((Submodule.mem_bot ℚ).mp hv')

theorem not_fullColRank_iff_rank_lt {R C : Type*} [Fintype R] [Fintype C]
    [DecidableEq C] (A : Matrix R C ℚ) :
    ¬ fullColRank A ↔ A.rank < Fintype.card C := by
  rw [fullColRank_iff_rank_eq]
  have hle := Matrix.rank_le_card_width A
  omega

/-- C8: construction raises a validation error exactly when the total
regressor count is zero, the instrument count is below the endogenous count,
`x = [exog endog]` or `z = [exog instruments]` (on the retained rows) is
column-rank-deficient, some present observation weight is nonpositive, or
every row has missing data — and succeeds otherwise. -/
theorem C8_validation_error_exactly {nobs k1 k2 k3 : ℕ}
    (r : RawInput nobs k1 k2 k3) :
    (∃ e, construct r = .error e) ↔
      (k1 + k2 = 0 ∨ k3 < k2 ∨
        (xMat r).rank < k1 + k2 ∨
        (zMat r).rank < k1 + k3 ∨
        (∃ i, r.wtsMask i = false ∧ r.wts i ≤ 0) ∨
        (∀ i, missingRow r i = true)) := by
  have hcx : Fintype.card (Fin k1 ⊕ Fin k2) = k1 + k2 := by simp
  have hcz : Fintype.card (Fin k1 ⊕ Fin k3) = k1 + k3 := by simp
  unfold construct
  by_cases h1 : ∃ i, r.wtsMask i = false ∧ r.wts i ≤ 0
  case pos =>
    rw [if_pos h1]
    exact iff_of_true ⟨_, rfl⟩
      (Or.inr (Or.inr (Or.inr (Or.inr (Or.inl h1)))))
  rw [if_neg h1]
  by_cases h2 : ∀ i, missingRow r i = true
  case pos =>
    rw [if_pos h2]
    exact iff_of_true ⟨_, rfl⟩
      (Or.inr (Or.inr (Or.inr (Or.inr (Or.inr h2)))))
  rw [if_neg h2]
  by_cases h3 : k1 + k2 = 0
  case pos =>
    rw [if_pos h3]
    exact iff_of_true ⟨_, rfl⟩ (Or.inl h3)
  rw [if_neg h3]
  by_cases h4 : k3 < k2
  case pos =>
    rw [if_pos h4]
    exact iff_of_true ⟨_, rfl⟩ (Or.inr (Or.inl h4))
  rw [if_neg h4]
  by_cases h5 : fullColRank (xMat r)
  case neg =>
    rw [if_pos h5]
    exact iff_of_true ⟨_, rfl⟩
      (Or.inr (Or.inr (Or.inl
        (hcx ▸ (not_fullColRank_iff_rank_lt (xMat r)).mp h5))))
  rw [if_neg (not_not_intro h5)]
  by_cases h6 : fullColRank (zMat r)
  case neg =>
    rw [if_pos h6]
    exact iff_of_true ⟨_, rfl⟩
      (Or.inr (Or.inr (Or.inr (Or.inl
        (hcz ▸ (not_fullColRank_iff_rank_lt (zMat r)).mp h6)))))
  rw [if_neg (not_not_intro h6)]
  refine iff_of_false ?_ ?_
  · rintro ⟨e, he⟩
    exact Except.noConfusion he
  · have hx := (fullColRank_iff_rank_eq (xMat r)).mp h5
    have hz' := (fullColRank_iff_rank_eq (zMat r)).mp h6
    rw [hcx] at hx
    rw [hcz] at hz'
    rintro (h | h | h | h | h | h)
    · exact h3 h
    · exact h4 h
    · omega
    · omega
    · exact h1 h
    · exact h2 h

/-- C10: constructing an `IVGMMCUE` without a `center` entry in
`weight_config` leaves the constructed weight-matrix strategy exactly as the
plain GMM base constructor builds it from the original config — the
`weight_config["center"] = True` assignment runs only after the superclass
has already built the strategy, so the strategy still receives
`center = none` (its own default applies) and the constructed state is
indistinguishable from the base one for every subsequent fit. -/
theorem C10_cue_center_assignment_no_effect {α σ : Type}
    (weight_matrix_estimator : WeightConfig α → σ) (rest : α) :
    cueInit weight_matrix_estimator ⟨none, rest⟩ =
      gmmBaseInit weight_matrix_estimator ⟨none, rest⟩ ∧
    (cueInit weight_matrix_estimator ⟨none, rest⟩).weight =
      weight_matrix_estimator ⟨none, rest⟩ ∧
    (cueInit (fun c => c) (⟨none, rest⟩ : WeightConfig α)).weight =
      (⟨none, rest⟩ : WeightConfig α) :=
  ⟨rfl, rfl, rfl⟩

end LinearModels
